import Mathlib

/-!
Verification of the boomergit lane-allocation engine and tile renderer/cache.

The definitions below are a shallow embedding of `src/graph/layout.ts`
(`computeGraphLayout` and its local helpers `nextColor`, `findFreeLane`,
`findLane`, `findAllLanes`) and of `src/graph/types.ts` (`BRANCH_COLORS`,
`SvgTileCache.buildKey`, `SvgTileCache.getTilePath`, `segmentPath`,
`renderSvg`).  Mutable local state (the lane array and the color counter)
is threaded explicitly; the per-commit loop body is `stepCommit`; the
inner loop over merge parents is `procExtraParents`.  Numeric literals of
the renderer are modelled as exact rationals, and the SVG string assembly
is modelled as a structured `RenderedTile` holding the same computed
geometry.  File-system effects of the cache are modelled as explicit
state (`SvgTileCache.cache`, `SvgTileCache.files`).
-/

namespace BoomerGit

/-- A commit record as consumed by the layout engine: `hash` and ordered
`parents` hashes; the remaining metadata fields are opaque to layout and
omitted. -/
structure Commit where
  hash : String
  parents : List String
deriving DecidableEq

/-- The `half` flag of a segment (`types.ts`): which portion of the row
tile the segment occupies. -/
inductive Half where
  | top
  | bottom
deriving DecidableEq

/-- A drawable connector within one row (`Segment` in `types.ts`);
`half = none` means full height. -/
structure Segment where
  topCol : Nat
  botCol : Nat
  color : String
  half : Option Half
deriving DecidableEq

/-- One produced row descriptor (`GraphRow` in `types.ts`). -/
structure GraphRow where
  commitHash : String
  commitCol : Nat
  commitColor : String
  segments : List Segment
  numCols : Nat
deriving DecidableEq

/-- The fixed 12-entry palette (`BRANCH_COLORS` in `types.ts`). -/
def BRANCH_COLORS : List String :=
  [ "#F5A623", "#4FC3F7", "#81C784", "#E57373", "#BA68C8", "#FFD54F",
    "#4DD0E1", "#FF8A65", "#A1887F", "#90A4AE", "#AED581", "#7986CB" ]

/-- A lane entry: the hash this lane is currently extended toward, and
the lane's strand color (`LaneEntry` in `layout.ts`). -/
structure LaneEntry where
  hash : String
  color : String
deriving DecidableEq

/-- The growable lane array; `none` is a free slot. -/
abbrev Lanes := List (Option LaneEntry)

/-- `nextColor` of `layout.ts`: reads `BRANCH_COLORS[colorIdx % 12]` and
increments the counter. -/
def nextColor (colorIdx : Nat) : String × Nat :=
  (BRANCH_COLORS.getD (colorIdx % BRANCH_COLORS.length) "", colorIdx + 1)

/-- Scan of `findFreeLane`: first index `≥ i` (relative position in `l`)
whose slot is `null` and not excluded. -/
def findFreeLaneAux : Lanes → List Nat → Nat → Option Nat
  | [], _, _ => none
  | none :: rest, excl, i =>
      if i ∈ excl then findFreeLaneAux rest excl (i + 1) else some i
  | some _ :: rest, excl, i => findFreeLaneAux rest excl (i + 1)

/-- `findFreeLane` of `layout.ts`: leftmost free non-excluded slot; if no
such slot exists, a fresh `null` slot is appended and its index returned. -/
def findFreeLane (lanes : Lanes) (excl : List Nat) : Nat × Lanes :=
  match findFreeLaneAux lanes excl 0 with
  | some i => (i, lanes)
  | none => (lanes.length, lanes ++ [none])

/-- Scan of `findLane`: first index `≥ i` distinct from `excl` whose
entry awaits `h`. -/
def findLaneAux : Lanes → String → Nat → Nat → Option Nat
  | [], _, _, _ => none
  | none :: rest, h, excl, i => findLaneAux rest h excl (i + 1)
  | some e :: rest, h, excl, i =>
      if i ≠ excl ∧ e.hash = h then some i else findLaneAux rest h excl (i + 1)

/-- `findLane` of `layout.ts` (the engine always passes the commit lane
as the excluded index). -/
def findLane (lanes : Lanes) (h : String) (excl : Nat) : Option Nat :=
  findLaneAux lanes h excl 0

/-- Scan of `findAllLanes`: all indices `≥ i` whose entry awaits `h`,
in increasing order. -/
def findAllLanesAux : Lanes → String → Nat → List Nat
  | [], _, _ => []
  | none :: rest, h, i => findAllLanesAux rest h (i + 1)
  | some e :: rest, h, i =>
      if e.hash = h then i :: findAllLanesAux rest h (i + 1)
      else findAllLanesAux rest h (i + 1)

/-- `findAllLanes` of `layout.ts`: every lane index carrying `h`. -/
def findAllLanes (lanes : Lanes) (h : String) : List Nat :=
  findAllLanesAux lanes h 0

/-- The loop freeing converging lanes (`lanes[cl] = null`). -/
def freeConverging (lanes : Lanes) (cls : List Nat) : Lanes :=
  cls.foldl (fun ls cl => ls.set cl none) lanes

/-- Result of the loop over merge parents (`pi ≥ 1`) in `layout.ts`:
final lane array, final color counter, and the recorded `forks` and
`merges` lists (lane index and color, in loop order). -/
structure ParentsResult where
  lanes : Lanes
  colorIdx : Nat
  forks : List (Nat × String)
  merges : List (Nat × String)
deriving DecidableEq

/-- The loop over the extra (merge) parents of a commit: each parent is
looked up among the lanes (excluding the commit lane); a hit records a
merge, a miss opens a fresh lane (leftmost free, excluding the commit
lane) with a freshly counted color and records a fork. -/
def procExtraParents (commitLane : Nat) : List String → Lanes → Nat → ParentsResult
  | [], lanes, colorIdx => ⟨lanes, colorIdx, [], []⟩
  | p :: ps, lanes, colorIdx =>
      match findLane lanes p commitLane with
      | some m =>
          let c := match lanes.getD m none with
            | some e => e.color
            | none => ""
          let r := procExtraParents commitLane ps lanes colorIdx
          ⟨r.lanes, r.colorIdx, r.forks, (m, c) :: r.merges⟩
      | none =>
          let fr := findFreeLane lanes [commitLane]
          let nc := nextColor colorIdx
          let lanes2 := fr.2.set fr.1 (some ⟨p, nc.1⟩)
          let r := procExtraParents commitLane ps lanes2 nc.2
          ⟨r.lanes, r.colorIdx, (fr.1, nc.1) :: r.forks, r.merges⟩

/-- Pass-through segments (block A of `layout.ts`): for every non-commit
column live both in the pre-row and the post-row snapshots, a full-height
same-column segment carrying the pre-row color. -/
def buildSegsA (topLanes botLanes : Lanes) (commitLane : Nat) : List Segment :=
  (List.range (max topLanes.length botLanes.length)).filterMap (fun i =>
    if i = commitLane then none
    else match topLanes.getD i none, botLanes.getD i none with
      | some t, some _ => some ⟨i, i, t.color, none⟩
      | _, _ => none)

/-- Convergence segments (block B of `layout.ts`): a full-height curve
from every converging lane down to the commit column, carrying the
converging lane's pre-row color (`?? commitColor` mirrors the source's
null-coalescing fallback). -/
def buildSegsB (topLanes : Lanes) (commitLane : Nat) (commitColor : String)
    (cls : List Nat) : List Segment :=
  cls.map (fun cl =>
    let clColor := match topLanes.getD cl none with
      | some e => e.color
      | none => commitColor
    ⟨cl, commitLane, clColor, none⟩)

/-- Result of processing one commit: the produced row, the updated lane
array and color counter, plus the loop's local observables (`forks`,
`merges`, the converging lanes, and whether the commit was a new tip). -/
structure StepResult where
  row : GraphRow
  lanes : Lanes
  colorIdx : Nat
  forks : List (Nat × String)
  merges : List (Nat × String)
  convergingLanes : List Nat
  isNewTip : Bool
deriving DecidableEq

/-- The body of the per-commit loop of `computeGraphLayout`
(`layout.ts`, lines 44-161), acting on the explicit engine state.  The
source's single `if (isNewTip) { ... } else { ... }` block assigns
`commitLane`, the lane array, the counter and `convergingLanes` at once;
here each binding carries its own `if` on the same condition.
`convergingLanes` is `matchingLanes.slice(1)` in the source's else
branch and `[]` in its then branch; `matchingLanes.tail` is both, since
`matchingLanes` is empty exactly when `isNewTip`. -/
def stepCommit (lanes : Lanes) (colorIdx : Nat) (commit : Commit) : StepResult :=
  let matchingLanes := findAllLanes lanes commit.hash
  let isNewTip := matchingLanes.isEmpty
  let commitLane := if isNewTip then (findFreeLane lanes []).1 else matchingLanes.headD 0
  let lanes1 :=
    if isNewTip then
      (findFreeLane lanes []).2.set commitLane (some ⟨commit.hash, (nextColor colorIdx).1⟩)
    else lanes
  let colorIdx1 := if isNewTip then (nextColor colorIdx).2 else colorIdx
  let convergingLanes := matchingLanes.tail
  let commitColor := match lanes1.getD commitLane none with
    | some e => e.color
    | none => ""
  let topLanes := lanes1
  let lanes2 := freeConverging lanes1 convergingLanes
  let lanes3 := match commit.parents with
    | [] => lanes2.set commitLane none
    | p :: _ => lanes2.set commitLane (some ⟨p, commitColor⟩)
  let pr := procExtraParents commitLane commit.parents.tail lanes3 colorIdx1
  let botLanes := pr.lanes
  let segsA := buildSegsA topLanes botLanes commitLane
  let segsB := buildSegsB topLanes commitLane commitColor convergingLanes
  let segsC : List Segment :=
    match commit.parents with
    | _ :: _ =>
        if isNewTip then [⟨commitLane, commitLane, commitColor, some Half.bottom⟩]
        else [⟨commitLane, commitLane, commitColor, none⟩]
    | [] =>
        if isNewTip then [⟨commitLane, commitLane, commitColor, none⟩]
        else [⟨commitLane, commitLane, commitColor, some Half.top⟩]
  let segsD := pr.forks.map (fun f => (⟨commitLane, f.1, f.2, some Half.bottom⟩ : Segment))
  let segsE := pr.merges.map (fun m => (⟨m.1, commitLane, m.2, none⟩ : Segment))
  let segments := segsA ++ segsB ++ segsC ++ segsD ++ segsE
  let maxCol := segments.foldl (fun mc s => max (max mc s.topCol) s.botCol) commitLane
  { row := ⟨commit.hash, commitLane, commitColor, segments, maxCol + 1⟩,
    lanes := pr.lanes, colorIdx := pr.colorIdx,
    forks := pr.forks, merges := pr.merges,
    convergingLanes := convergingLanes, isNewTip := isNewTip }

/-- The per-commit loop of `computeGraphLayout`, from a given engine
state. -/
def computeGraphLayoutAux (lanes : Lanes) (colorIdx : Nat) : List Commit → List GraphRow
  | [] => []
  | c :: cs =>
      let r := stepCommit lanes colorIdx c
      r.row :: computeGraphLayoutAux r.lanes r.colorIdx cs

/-- `computeGraphLayout` of `layout.ts`: one pass over the commit
sequence, starting from an empty lane array and a reset color counter. -/
def computeGraphLayout (commits : List Commit) : List GraphRow :=
  computeGraphLayoutAux [] 0 commits

/-- The engine state (lane array and color counter) after a run over a
commit sequence, starting from the given state. -/
def runLayoutState (lanes : Lanes) (colorIdx : Nat) : List Commit → Lanes × Nat
  | [] => (lanes, colorIdx)
  | c :: cs =>
      let r := stepCommit lanes colorIdx c
      runLayoutState r.lanes r.colorIdx cs

/-- The lane array after the first `n` commits of a run that starts from
an empty lane array and a reset color counter. -/
def lanesAfter (commits : List Commit) (n : Nat) : Lanes :=
  (runLayoutState [] 0 (commits.take n)).1

/-- The colors handed to the lanes newly opened while processing one
commit, in allocation order: the tip color (if the commit was a new tip)
followed by the fork colors. -/
def openedColors (r : StepResult) : List String :=
  (if r.isNewTip then [r.row.commitColor] else []) ++ r.forks.map Prod.snd

/-- All colors handed to newly opened lanes across a run, in allocation
order. -/
def runOpenedColors (lanes : Lanes) (colorIdx : Nat) : List Commit → List String
  | [] => []
  | c :: cs =>
      let r := stepCommit lanes colorIdx c
      openedColors r ++ runOpenedColors r.lanes r.colorIdx cs

/-! Renderer (`types.ts`).  Grid constants and geometry are modelled over
the exact rationals; the SVG string assembly is modelled structurally. -/

/-- `COL_WIDTH` of `types.ts`. -/
def COL_WIDTH : ℚ := 20

/-- `ROW_HEIGHT` of `types.ts`. -/
def ROW_HEIGHT : ℚ := 24

/-- `DOT_RADIUS` of `types.ts`. -/
def DOT_RADIUS : ℚ := 5

/-- `LINE_WIDTH` of `types.ts` (the literal `2.5`). -/
def LINE_WIDTH : ℚ := 5 / 2

/-- `colX` of `types.ts`: the horizontal center of a column. -/
def colX (col : Nat) : ℚ := col * COL_WIDTH + COL_WIDTH / 2

/-- A structured rendering of the path string produced by `segmentPath`:
either a straight line (`M x0,y0 L x1,y1`) or a cubic bezier
(`M x0,y0 C cx1,cy1 cx2,cy2 x1,y1`). -/
inductive PathD where
  | line (x0 y0 x1 y1 : ℚ)
  | cubic (x0 y0 cx1 cy1 cx2 cy2 x1 y1 : ℚ)
deriving DecidableEq

/-- `segmentPath` of `types.ts`: a straight vertical line when the two
x-coordinates coincide, otherwise a cubic with both control points at
height `y0 + (y1 - y0) * cpFactor`. -/
def segmentPath (x0 y0 x1 y1 cpFactor : ℚ) : PathD :=
  if x0 = x1 then PathD.line x0 y0 x1 y1
  else
    let cpY := y0 + (y1 - y0) * cpFactor
    PathD.cubic x0 y0 x0 cpY x1 cpY x1 y1

/-- One drawn stroke of a tile: path geometry plus stroke color. -/
structure RenderedSeg where
  path : PathD
  color : String
deriving DecidableEq

/-- A structured rendering of the SVG produced by `renderSvg`: canvas
size, the per-segment strokes (in input order), and the commit dot. -/
structure RenderedTile where
  width : ℚ
  height : ℚ
  segs : List RenderedSeg
  dotX : ℚ
  dotY : ℚ
  dotColor : String
deriving DecidableEq

/-- The per-segment body of `renderSvg`'s loop: vertical span from the
`half` flag, then `segmentPath` with cpFactor `0.35` for full-height
cross-column curves and `0.5` otherwise. -/
def renderSeg (rowHeight : ℚ) (seg : Segment) : RenderedSeg :=
  let xTop := colX seg.topCol
  let xBot := colX seg.botCol
  let midY := rowHeight / 2
  let y0 : ℚ := match seg.half with
    | some Half.top => 0
    | some Half.bottom => midY
    | none => 0
  let y1 : ℚ := match seg.half with
    | some Half.top => midY
    | some Half.bottom => rowHeight
    | none => rowHeight
  let isFullHeightCurve := seg.half = none ∧ xTop ≠ xBot
  ⟨segmentPath xTop y0 xBot y1 (if isFullHeightCurve then 35 / 100 else 1 / 2), seg.color⟩

/-- `renderSvg` of `types.ts`, modelled structurally: width
`cols * COL_WIDTH + COL_WIDTH`, height `rowHeight`, one stroke per
segment, and the commit dot at the commit column's center and the row's
midline. -/
def renderSvg (row : GraphRow) (rowHeight : ℚ) (maxCols : Option Nat) : RenderedTile :=
  let cols := maxCols.getD row.numCols
  ⟨cols * COL_WIDTH + COL_WIDTH, rowHeight, row.segments.map (renderSeg rowHeight),
   colX row.commitCol, rowHeight / 2, row.commitColor⟩

/-! Tile cache (`SvgTileCache` of `types.ts`).  The in-memory `Map` and
the persisted files are modelled as association lists in an explicit
state record. -/

/-- Wrap an integer to the signed 32-bit range, as JavaScript's `| 0`. -/
def wrap32 (n : Int) : Int := (n + 2 ^ 31) % 2 ^ 32 - 2 ^ 31

/-- One step of `buildKey`'s rolling hash:
`hash = ((hash << 5) - hash + str.charCodeAt(i)) | 0` (the shift itself
wraps to 32 bits before the subtraction). -/
def hashStep (h : Int) (c : Char) : Int :=
  wrap32 (wrap32 (h * 32) - h + (c.toNat : Int))

/-- Base-36 digit characters `0-9a-z`, as used by JavaScript's
`Number.prototype.toString(36)`. -/
def base36Char (n : Nat) : Char :=
  if n < 10 then Char.ofNat (48 + n) else Char.ofNat (87 + n)

/-- Digits of `n` in base 36, most significant first (empty for 0).
Structural recursion on a fuel argument; the quotient shrinks strictly,
so any fuel of at least `n + 1` computes all digits. -/
def toBase36Aux : Nat → Nat → List Char
  | 0, _ => []
  | fuel + 1, n =>
      if n = 0 then [] else toBase36Aux fuel (n / 36) ++ [base36Char (n % 36)]

/-- `n.toString(36)` of JavaScript for a nonnegative integer. -/
def toBase36 (n : Nat) : String :=
  if n = 0 then "0" else String.mk (toBase36Aux (n + 1) n)

/-- Drop the first occurrence of `#` from a character list. -/
def removeFirstHashChars : List Char → List Char
  | [] => []
  | c :: rest => if c = '#' then rest else c :: removeFirstHashChars rest

/-- JavaScript's `s.replace("#", "")`: remove the first `#` only. -/
def replaceFirstHash (s : String) : String :=
  String.mk (removeFirstHashChars s.data)

/-- The half-flag letter of a key part: `T`, `B` or `F`. -/
def segHalfChar : Option Half → String
  | some Half.top => "T"
  | some Half.bottom => "B"
  | none => "F"

/-- One segment's contribution to the cache key. -/
def segKeyPart (seg : Segment) : String :=
  segHalfChar seg.half ++ toString seg.topCol ++ "-" ++ toString seg.botCol
    ++ ":" ++ replaceFirstHash seg.color

/-- `SvgTileCache.buildKey`: the digest over commit column, commit
color, row height, column count and the ordered segment tuples. -/
def buildKey (row : GraphRow) (rowHeight : Nat) (maxCols : Nat) : String :=
  let parts := ("c" ++ toString row.commitCol ++ ":" ++ replaceFirstHash row.commitColor
      ++ ":h" ++ toString rowHeight ++ ":w" ++ toString maxCols)
    :: row.segments.map segKeyPart
  let str := String.intercalate "_" parts
  let h := str.data.foldl hashStep 0
  "tile_" ++ toBase36 ((h % (2 : Int) ^ 32).toNat)

/-- The state of an `SvgTileCache`: its directory, the in-memory
key-to-path map, and the persisted tile files (path and content). -/
structure SvgTileCache where
  cacheDir : String
  cache : List (String × String)
  files : List (String × RenderedTile)
deriving DecidableEq

/-- `path.join` for the single join the cache performs. -/
def pathJoin (a b : String) : String := a ++ "/" ++ b

/-- `SvgTileCache.getTilePath`: build the key; on a hit return the
cached path unchanged; on a miss render the tile, persist it under
`cacheDir/key.svg`, record the path in the map and return it. -/
def getTilePath (st : SvgTileCache) (row : GraphRow) (rowHeight : Nat)
    (maxCols : Option Nat) : String × SvgTileCache :=
  let cols := maxCols.getD row.numCols
  let key := buildKey row rowHeight cols
  match st.cache.lookup key with
  | some cached => (cached, st)
  | none =>
      let svg := renderSvg row (rowHeight : ℚ) (some cols)
      let filePath := pathJoin st.cacheDir (key ++ ".svg")
      (filePath, { st with cache := (key, filePath) :: st.cache,
                           files := (filePath, svg) :: st.files })

/-! Helper lemmas about the lane array primitives. -/

theorem getD_some_lt {l : Lanes} {j : Nat} {e : LaneEntry}
    (h : l.getD j none = some e) : j < l.length := by
  by_contra hn
  rw [List.getD_eq_getElem?_getD, List.getElem?_eq_none (by omega)] at h
  simp at h

theorem getD_set_self {l : Lanes} {i : Nat} (x : Option LaneEntry)
    (h : i < l.length) : (l.set i x).getD i none = x := by
  rw [List.getD_eq_getElem?_getD, List.getElem?_set_self h]
  rfl

theorem getD_set_ne {l : Lanes} {i j : Nat} (x : Option LaneEntry)
    (h : i ≠ j) : (l.set i x).getD j none = l.getD j none := by
  rw [List.getD_eq_getElem?_getD, List.getD_eq_getElem?_getD, List.getElem?_set_ne h]

theorem getD_append_sentinel (l : Lanes) (j : Nat) :
    (l ++ [(none : Option LaneEntry)]).getD j none = l.getD j none := by
  rcases lt_trichotomy j l.length with h | h | h
  · rw [List.getD_eq_getElem?_getD, List.getD_eq_getElem?_getD,
      List.getElem?_append_left h]
  · subst h
    rw [List.getD_eq_getElem?_getD, List.getD_eq_getElem?_getD,
      List.getElem?_concat_length, List.getElem?_eq_none (le_refl _)]
    rfl
  · rw [List.getD_eq_getElem?_getD, List.getD_eq_getElem?_getD,
      List.getElem?_eq_none
        (show (l ++ [(none : Option LaneEntry)]).length ≤ j by
          simp only [List.length_append, List.length_cons, List.length_nil]; omega),
      List.getElem?_eq_none (by omega)]

/-! Lemmas about the `findFreeLane` scan. -/

theorem findFreeLaneAux_not_mem : ∀ {l : Lanes} {excl : List Nat} {i j : Nat},
    findFreeLaneAux l excl i = some j → j ∉ excl := by
  intro l
  induction l with
  | nil => intro excl i j h; simp [findFreeLaneAux] at h
  | cons hd tl ih =>
      intro excl i j h
      cases hd with
      | none =>
          rw [findFreeLaneAux] at h
          split at h
          · exact ih h
          · cases h; assumption
      | some e => exact ih h

theorem findFreeLaneAux_ge : ∀ {l : Lanes} {excl : List Nat} {i j : Nat},
    findFreeLaneAux l excl i = some j → i ≤ j := by
  intro l
  induction l with
  | nil => intro excl i j h; simp [findFreeLaneAux] at h
  | cons hd tl ih =>
      intro excl i j h
      cases hd with
      | none =>
          rw [findFreeLaneAux] at h
          split at h
          · exact le_trans (Nat.le_succ i) (ih h)
          · cases h; exact le_refl _
      | some e => exact le_trans (Nat.le_succ i) (ih h)

theorem findFreeLaneAux_lt : ∀ {l : Lanes} {excl : List Nat} {i j : Nat},
    findFreeLaneAux l excl i = some j → j < i + l.length := by
  intro l
  induction l with
  | nil => intro excl i j h; simp [findFreeLaneAux] at h
  | cons hd tl ih =>
      intro excl i j h
      cases hd with
      | none =>
          rw [findFreeLaneAux] at h
          split at h
          · have := ih h; simp only [List.length_cons]; omega
          · cases h; simp only [List.length_cons]; omega
      | some e =>
          have := ih h; simp only [List.length_cons]; omega

theorem findFreeLaneAux_free : ∀ {l : Lanes} {excl : List Nat} {i j : Nat},
    findFreeLaneAux l excl i = some j → l.getD (j - i) none = none := by
  intro l
  induction l with
  | nil => intro excl i j h; simp [findFreeLaneAux] at h
  | cons hd tl ih =>
      intro excl i j h
      cases hd with
      | none =>
          rw [findFreeLaneAux] at h
          split at h
          · have hge := findFreeLaneAux_ge h
            have := ih h
            have hji : j - i = (j - (i + 1)) + 1 := by omega
            rw [hji, List.getD_cons_succ]
            exact this
          · cases h
            simp [List.getD_cons_zero]
      | some e =>
          rw [findFreeLaneAux] at h
          have hge := findFreeLaneAux_ge h
          have := ih h
          have hji : j - i = (j - (i + 1)) + 1 := by omega
          rw [hji, List.getD_cons_succ]
          exact this

theorem findFreeLaneAux_min : ∀ {l : Lanes} {excl : List Nat} {i j : Nat},
    findFreeLaneAux l excl i = some j →
    ∀ k, i ≤ k → k < j → ¬(l.getD (k - i) none = none ∧ k ∉ excl) := by
  intro l
  induction l with
  | nil => intro excl i j h; simp [findFreeLaneAux] at h
  | cons hd tl ih =>
      intro excl i j h k hik hkj
      cases hd with
      | none =>
          rw [findFreeLaneAux] at h
          split at h
          · rcases Nat.eq_or_lt_of_le hik with heq | hlt
            · subst heq
              rintro ⟨-, hmem⟩
              exact hmem (by assumption)
            · intro hc
              have hki : k - i = (k - (i + 1)) + 1 := by omega
              rw [hki, List.getD_cons_succ] at hc
              exact ih h k hlt hkj hc
          · cases h; exact absurd hkj (by omega)
      | some e =>
          rcases Nat.eq_or_lt_of_le hik with heq | hlt
          · subst heq
            rintro ⟨hc, -⟩
            simp [List.getD_cons_zero] at hc
          · intro hc
            have hki : k - i = (k - (i + 1)) + 1 := by omega
            rw [hki, List.getD_cons_succ] at hc
            exact ih h k hlt hkj hc

theorem findFreeLaneAux_none : ∀ {l : Lanes} {excl : List Nat} {i : Nat},
    findFreeLaneAux l excl i = none →
    ∀ k, k < l.length → ¬(l.getD k none = none ∧ (i + k) ∉ excl) := by
  intro l
  induction l with
  | nil => intro excl i _ k hk; simp at hk
  | cons hd tl ih =>
      intro excl i h k hk
      cases hd with
      | none =>
          rw [findFreeLaneAux] at h
          split at h
          · cases k with
            | zero =>
                rintro ⟨-, hmem⟩
                simp only [Nat.add_zero] at hmem
                exact hmem (by assumption)
            | succ k' =>
                intro hc
                rw [List.getD_cons_succ] at hc
                have := ih h k' (by simp only [List.length_cons] at hk; omega)
                rw [show i + 1 + k' = i + (k' + 1) by omega] at this
                exact this ⟨hc.1, hc.2⟩
          · exact absurd h (by simp)
      | some e =>
          cases k with
          | zero =>
              rintro ⟨hc, -⟩
              simp [List.getD_cons_zero] at hc
          | succ k' =>
              intro hc
              rw [List.getD_cons_succ] at hc
              have := ih h k' (by simp only [List.length_cons] at hk; omega)
              rw [show i + 1 + k' = i + (k' + 1) by omega] at this
              exact this ⟨hc.1, hc.2⟩

theorem findFreeLane_fst_getD_none (lanes : Lanes) (excl : List Nat) :
    lanes.getD (findFreeLane lanes excl).1 none = none := by
  unfold findFreeLane
  cases h : findFreeLaneAux lanes excl 0 with
  | some i =>
      have := findFreeLaneAux_free h
      simpa using this
  | none =>
      simp only
      rw [List.getD_eq_getElem?_getD, List.getElem?_eq_none (le_refl _)]
      rfl

theorem findFreeLane_fst_lt_len (lanes : Lanes) (excl : List Nat) :
    (findFreeLane lanes excl).1 < (findFreeLane lanes excl).2.length := by
  unfold findFreeLane
  cases h : findFreeLaneAux lanes excl 0 with
  | some i =>
      have := findFreeLaneAux_lt h
      simpa using this
  | none => simp

theorem findFreeLane_snd_getD (lanes : Lanes) (excl : List Nat) (j : Nat) :
    (findFreeLane lanes excl).2.getD j none = lanes.getD j none := by
  unfold findFreeLane
  cases h : findFreeLaneAux lanes excl 0 with
  | some i => rfl
  | none => exact getD_append_sentinel lanes j

theorem findFreeLane_snd_len_ge (lanes : Lanes) (excl : List Nat) :
    lanes.length ≤ (findFreeLane lanes excl).2.length := by
  unfold findFreeLane
  cases h : findFreeLaneAux lanes excl 0 with
  | some i => exact le_refl _
  | none => simp

theorem findFreeLane_fst_spec (lanes : Lanes) (excl : List Nat) :
    (findFreeLane lanes excl).1 ∉ excl ∨ (findFreeLane lanes excl).1 = lanes.length := by
  unfold findFreeLane
  cases h : findFreeLaneAux lanes excl 0 with
  | some i => exact Or.inl (findFreeLaneAux_not_mem h)
  | none => exact Or.inr rfl

theorem findFreeLane_fst_ne {lanes : Lanes} {excl : List Nat} {c : Nat}
    (hmem : c ∈ excl) (hlt : c < lanes.length) : (findFreeLane lanes excl).1 ≠ c := by
  rcases findFreeLane_fst_spec lanes excl with h | h
  · intro he; exact h (he ▸ hmem)
  · omega

/-! Lemmas about the `findLane` scan. -/

theorem findLaneAux_spec : ∀ {l : Lanes} {h : String} {excl i m : Nat},
    findLaneAux l h excl i = some m →
    m ≠ excl ∧ i ≤ m ∧ ∃ e, l.getD (m - i) none = some e ∧ e.hash = h := by
  intro l
  induction l with
  | nil => intro h excl i m hf; simp [findLaneAux] at hf
  | cons hd tl ih =>
      intro h excl i m hf
      cases hd with
      | none =>
          rw [findLaneAux] at hf
          obtain ⟨hne, hge, e, he, hh⟩ := ih hf
          refine ⟨hne, by omega, e, ?_, hh⟩
          have hmi : m - i = (m - (i + 1)) + 1 := by omega
          rw [hmi, List.getD_cons_succ]
          exact he
      | some e0 =>
          rw [findLaneAux] at hf
          split at hf
          · cases hf
            rename_i hcond
            refine ⟨hcond.1, le_refl _, e0, ?_, hcond.2⟩
            simp [List.getD_cons_zero]
          · obtain ⟨hne, hge, e, he, hh⟩ := ih hf
            refine ⟨hne, by omega, e, ?_, hh⟩
            have hmi : m - i = (m - (i + 1)) + 1 := by omega
            rw [hmi, List.getD_cons_succ]
            exact he

theorem findLane_spec {lanes : Lanes} {h : String} {excl m : Nat}
    (hf : findLane lanes h excl = some m) :
    m ≠ excl ∧ ∃ e, lanes.getD m none = some e ∧ e.hash = h := by
  obtain ⟨hne, -, e, he, hh⟩ := findLaneAux_spec hf
  simp only [Nat.sub_zero] at he
  exact ⟨hne, e, he, hh⟩

/-! Lemmas about the `findAllLanes` scan. -/

theorem findAllLanesAux_ge : ∀ {l : Lanes} {h : String} {i x : Nat},
    x ∈ findAllLanesAux l h i → i ≤ x := by
  intro l
  induction l with
  | nil => intro h i x hx; simp [findAllLanesAux] at hx
  | cons hd tl ih =>
      intro h i x hx
      cases hd with
      | none =>
          rw [findAllLanesAux] at hx
          exact le_trans (Nat.le_succ i) (ih hx)
      | some e =>
          rw [findAllLanesAux] at hx
          split at hx
          · rcases List.mem_cons.mp hx with hx | hx
            · omega
            · exact le_trans (Nat.le_succ i) (ih hx)
          · exact le_trans (Nat.le_succ i) (ih hx)

theorem findAllLanesAux_mem_entry : ∀ {l : Lanes} {h : String} {i x : Nat},
    x ∈ findAllLanesAux l h i →
    ∃ e, l.getD (x - i) none = some e ∧ e.hash = h := by
  intro l
  induction l with
  | nil => intro h i x hx; simp [findAllLanesAux] at hx
  | cons hd tl ih =>
      intro h i x hx
      cases hd with
      | none =>
          rw [findAllLanesAux] at hx
          have hge := findAllLanesAux_ge hx
          obtain ⟨e, he, hh⟩ := ih hx
          refine ⟨e, ?_, hh⟩
          have hxi : x - i = (x - (i + 1)) + 1 := by omega
          rw [hxi, List.getD_cons_succ]
          exact he
      | some e0 =>
          rw [findAllLanesAux] at hx
          split at hx
          · rcases List.mem_cons.mp hx with hx | hx
            · subst hx
              rename_i hcond
              exact ⟨e0, by simp [List.getD_cons_zero], hcond⟩
            · have hge := findAllLanesAux_ge hx
              obtain ⟨e, he, hh⟩ := ih hx
              refine ⟨e, ?_, hh⟩
              have hxi : x - i = (x - (i + 1)) + 1 := by omega
              rw [hxi, List.getD_cons_succ]
              exact he
          · have hge := findAllLanesAux_ge hx
            obtain ⟨e, he, hh⟩ := ih hx
            refine ⟨e, ?_, hh⟩
            have hxi : x - i = (x - (i + 1)) + 1 := by omega
            rw [hxi, List.getD_cons_succ]
            exact he

theorem findAllLanesAux_cons_gt : ∀ {l : Lanes} {h : String} {i j : Nat}
    {rest : List Nat}, findAllLanesAux l h i = j :: rest → ∀ x ∈ rest, j < x := by
  intro l
  induction l with
  | nil => intro h i j rest he; simp [findAllLanesAux] at he
  | cons hd tl ih =>
      intro h i j rest he x hx
      cases hd with
      | none =>
          rw [findAllLanesAux] at he
          exact ih he x hx
      | some e =>
          rw [findAllLanesAux] at he
          split at he
          · cases he
            have := findAllLanesAux_ge hx
            omega
          · exact ih he x hx

theorem findAllLanes_mem_entry {lanes : Lanes} {h : String} {x : Nat}
    (hx : x ∈ findAllLanes lanes h) :
    ∃ e, lanes.getD x none = some e ∧ e.hash = h := by
  obtain ⟨e, he, hh⟩ := findAllLanesAux_mem_entry hx
  simp only [Nat.sub_zero] at he
  exact ⟨e, he, hh⟩

theorem findAllLanes_tail_gt {lanes : Lanes} {h : String} {j : Nat}
    {rest : List Nat} (he : findAllLanes lanes h = j :: rest) :
    ∀ x ∈ rest, j < x :=
  findAllLanesAux_cons_gt he

/-! Lemmas about freeing the converging lanes. -/

theorem freeConverging_length (lanes : Lanes) (cls : List Nat) :
    (freeConverging lanes cls).length = lanes.length := by
  induction cls generalizing lanes with
  | nil => rfl
  | cons c rest ih =>
      show (freeConverging (lanes.set c none) rest).length = lanes.length
      rw [ih, List.length_set]

theorem freeConverging_getD_not_mem {lanes : Lanes} {cls : List Nat} {j : Nat}
    (hj : j ∉ cls) : (freeConverging lanes cls).getD j none = lanes.getD j none := by
  induction cls generalizing lanes with
  | nil => rfl
  | cons c rest ih =>
      show (freeConverging (lanes.set c none) rest).getD j none = lanes.getD j none
      have hne : c ≠ j := fun he => hj (he ▸ List.mem_cons_self _ _)
      rw [ih (fun hm => hj (List.mem_cons_of_mem _ hm)), getD_set_ne _ hne]

theorem freeConverging_getD_mem {lanes : Lanes} {cls : List Nat} {j : Nat}
    (hj : j ∈ cls) (hlt : j < lanes.length) :
    (freeConverging lanes cls).getD j none = none := by
  induction cls generalizing lanes with
  | nil => simp at hj
  | cons c rest ih =>
      show (freeConverging (lanes.set c none) rest).getD j none = none
      by_cases hr : j ∈ rest
      · exact ih hr (by rw [List.length_set]; exact hlt)
      · have hjc : j = c := by
          rcases List.mem_cons.mp hj with h | h
          · exact h
          · exact absurd h hr
        subst hjc
        rw [freeConverging_getD_not_mem hr, getD_set_self _ hlt]

/-! Lemmas about the merge-parent loop. -/

theorem procExtraParents_len_ge (cl : Nat) (ps : List String) :
    ∀ (lanes : Lanes) (ci : Nat),
    lanes.length ≤ (procExtraParents cl ps lanes ci).lanes.length := by
  induction ps with
  | nil => intro lanes ci; exact le_refl _
  | cons p ps ih =>
      intro lanes ci
      rw [procExtraParents]
      cases hf : findLane lanes p cl with
      | some m => simpa using ih lanes ci
      | none =>
          simp only
          calc lanes.length ≤ (findFreeLane lanes [cl]).2.length :=
                findFreeLane_snd_len_ge _ _
            _ = ((findFreeLane lanes [cl]).2.set (findFreeLane lanes [cl]).1
                  (some ⟨p, (nextColor ci).1⟩)).length := (List.length_set _ _ _).symm
            _ ≤ _ := ih _ _

theorem procExtraParents_getD_some (cl : Nat) (ps : List String) :
    ∀ {lanes : Lanes} {ci j : Nat} {e : LaneEntry},
    lanes.getD j none = some e →
    (procExtraParents cl ps lanes ci).lanes.getD j none = some e := by
  induction ps with
  | nil => intro lanes ci j e hj; exact hj
  | cons p ps ih =>
      intro lanes ci j e hj
      rw [procExtraParents]
      cases hf : findLane lanes p cl with
      | some m => simpa using ih hj
      | none =>
          simp only
          apply ih
          have hne : (findFreeLane lanes [cl]).1 ≠ j := by
            intro he
            have h0 := findFreeLane_fst_getD_none lanes [cl]
            rw [he, hj] at h0
            exact Option.noConfusion h0
          rw [getD_set_ne _ hne, findFreeLane_snd_getD]
          exact hj

theorem procExtraParents_getD_not_fork (cl : Nat) (ps : List String) :
    ∀ {lanes : Lanes} {ci j : Nat},
    (∀ f ∈ (procExtraParents cl ps lanes ci).forks, f.1 ≠ j) →
    (procExtraParents cl ps lanes ci).lanes.getD j none = lanes.getD j none := by
  induction ps with
  | nil => intro lanes ci j _; rfl
  | cons p ps ih =>
      intro lanes ci j hf
      rw [procExtraParents] at hf ⊢
      cases hfl : findLane lanes p cl with
      | some m =>
          rw [hfl] at hf
          simp only at hf ⊢
          exact ih hf
      | none =>
          rw [hfl] at hf
          simp only at hf ⊢
          have hhead : (findFreeLane lanes [cl]).1 ≠ j :=
            hf ((findFreeLane lanes [cl]).1, (nextColor ci).1) (List.mem_cons_self _ _)
          have htail : ∀ f ∈ (procExtraParents cl ps
              ((findFreeLane lanes [cl]).2.set (findFreeLane lanes [cl]).1
                (some ⟨p, (nextColor ci).1⟩)) (nextColor ci).2).forks, f.1 ≠ j :=
            fun f hm => hf f (List.mem_cons_of_mem _ hm)
          rw [ih htail, getD_set_ne _ hhead, findFreeLane_snd_getD]

theorem procExtraParents_merge_ne (cl : Nat) (ps : List String) :
    ∀ {lanes : Lanes} {ci m : Nat} {c : String},
    (m, c) ∈ (procExtraParents cl ps lanes ci).merges → m ≠ cl := by
  induction ps with
  | nil => intro lanes ci m c hm; simp [procExtraParents] at hm
  | cons p ps ih =>
      intro lanes ci m c hm
      rw [procExtraParents] at hm
      cases hfl : findLane lanes p cl with
      | some m0 =>
          rw [hfl] at hm
          simp only [List.mem_cons] at hm
          rcases hm with hm | hm
          · have hm0 : m = m0 := congrArg Prod.fst hm
            rw [hm0]
            exact (findLane_spec hfl).1
          · exact ih hm
      | none =>
          rw [hfl] at hm
          simp only at hm
          exact ih hm

theorem procExtraParents_merge_entry (cl : Nat) (ps : List String) :
    ∀ {lanes : Lanes} {ci m : Nat} {c : String},
    (m, c) ∈ (procExtraParents cl ps lanes ci).merges →
    ∃ e, (procExtraParents cl ps lanes ci).lanes.getD m none = some e ∧
      e.color = c ∧ e.hash ∈ ps := by
  induction ps with
  | nil => intro lanes ci m c hm; simp [procExtraParents] at hm
  | cons p ps ih =>
      intro lanes ci m c hm
      rw [procExtraParents] at hm ⊢
      cases hfl : findLane lanes p cl with
      | some m0 =>
          rw [hfl] at hm
          simp only [List.mem_cons] at hm
          simp only
          rcases hm with hm | hm
          · obtain ⟨-, e, he, hh⟩ := findLane_spec hfl
            have hm1 : m = m0 ∧ c = (match lanes.getD m0 none with
                | some e => e.color
                | none => "") := by
              constructor
              · exact congrArg Prod.fst hm
              · exact congrArg Prod.snd hm
            obtain ⟨hm0, hc⟩ := hm1
            subst hm0
            refine ⟨e, procExtraParents_getD_some cl ps he, ?_,
              by rw [hh]; exact List.mem_cons_self _ _⟩
            rw [hc, he]
          · obtain ⟨e, he, hc, hh⟩ := ih hm
            exact ⟨e, he, hc, List.mem_cons_of_mem _ hh⟩
      | none =>
          rw [hfl] at hm
          simp only at hm ⊢
          obtain ⟨e, he, hc, hh⟩ := ih hm
          exact ⟨e, he, hc, List.mem_cons_of_mem _ hh⟩

theorem procExtraParents_fork_ne (cl : Nat) (ps : List String) :
    ∀ {lanes : Lanes} {ci : Nat}, cl < lanes.length →
    ∀ {f : Nat} {c : String}, (f, c) ∈ (procExtraParents cl ps lanes ci).forks → f ≠ cl := by
  induction ps with
  | nil => intro lanes ci _ f c hm; simp [procExtraParents] at hm
  | cons p ps ih =>
      intro lanes ci hcl f c hm
      rw [procExtraParents] at hm
      cases hfl : findLane lanes p cl with
      | some m0 =>
          rw [hfl] at hm
          simp only at hm
          exact ih hcl hm
      | none =>
          rw [hfl] at hm
          simp only [List.mem_cons] at hm
          rcases hm with hm | hm
          · have hne := findFreeLane_fst_ne (List.mem_cons_self cl []) hcl
            have hf1 : f = (findFreeLane lanes [cl]).1 := congrArg Prod.fst hm
            rw [hf1]
            exact hne
          · have hcl2 : cl < ((findFreeLane lanes [cl]).2.set (findFreeLane lanes [cl]).1
                (some ⟨p, (nextColor ci).1⟩)).length := by
              rw [List.length_set]
              exact lt_of_lt_of_le hcl (findFreeLane_snd_len_ge _ _)
            exact ih hcl2 hm

theorem procExtraParents_colorIdx (cl : Nat) (ps : List String) :
    ∀ (lanes : Lanes) (ci : Nat),
    (procExtraParents cl ps lanes ci).colorIdx =
      ci + (procExtraParents cl ps lanes ci).forks.length := by
  induction ps with
  | nil => intro lanes ci; rfl
  | cons p ps ih =>
      intro lanes ci
      rw [procExtraParents]
      cases hfl : findLane lanes p cl with
      | some m0 => simpa using ih lanes ci
      | none =>
          simp only [List.length_cons]
          rw [ih]
          simp [nextColor]
          omega

theorem nextColor_fst (i : Nat) :
    (nextColor i).1 = BRANCH_COLORS.getD (i % 12) "" := rfl

theorem procExtraParents_fork_color (cl : Nat) (ps : List String) :
    ∀ (lanes : Lanes) (ci : Nat) (j : Nat),
    j < (procExtraParents cl ps lanes ci).forks.length →
    ((procExtraParents cl ps lanes ci).forks.getD j (0, "")).2 =
      BRANCH_COLORS.getD ((ci + j) % 12) "" := by
  induction ps with
  | nil => intro lanes ci j hj; simp [procExtraParents] at hj
  | cons p ps ih =>
      intro lanes ci j hj
      rw [procExtraParents] at hj ⊢
      cases hfl : findLane lanes p cl with
      | some m0 =>
          rw [hfl] at hj
          simp only at hj ⊢
          exact ih lanes ci j hj
      | none =>
          rw [hfl] at hj
          simp only at hj ⊢
          cases j with
          | zero =>
              simp only [List.getD_cons_zero, Nat.add_zero]
              exact nextColor_fst ci
          | succ j' =>
              simp only [List.getD_cons_succ]
              simp only [List.length_cons] at hj
              have := ih ((findFreeLane lanes [cl]).2.set (findFreeLane lanes [cl]).1
                (some ⟨p, (nextColor ci).1⟩)) (nextColor ci).2 j' (by omega)
              rw [this]
              have hci : (nextColor ci).2 = ci + 1 := rfl
              rw [hci, show ci + 1 + j' = ci + (j' + 1) by omega]

/-! Lemmas about the running maximum over a row's segments. -/

theorem segFold_ge_init (l : List Segment) : ∀ (a : Nat),
    a ≤ l.foldl (fun mc s => max (max mc s.topCol) s.botCol) a := by
  induction l with
  | nil => intro a; exact le_refl _
  | cons hd tl ih =>
      intro a
      exact le_trans (le_trans (le_max_left _ _) (le_max_left _ _)) (ih _)

theorem segFold_le_mem (l : List Segment) : ∀ {s : Segment}, s ∈ l → ∀ (a : Nat),
    s.topCol ≤ l.foldl (fun mc s => max (max mc s.topCol) s.botCol) a ∧
    s.botCol ≤ l.foldl (fun mc s => max (max mc s.topCol) s.botCol) a := by
  induction l with
  | nil => intro s hs; simp at hs
  | cons hd tl ih =>
      intro s hs a
      rcases List.mem_cons.mp hs with hs | hs
      · subst hs
        constructor
        · exact le_trans (le_trans (le_max_right _ _) (le_max_left _ _))
            (segFold_ge_init tl _)
        · exact le_trans (le_max_right _ _) (segFold_ge_init tl _)
      · exact ih hs _

theorem segFold_attained (l : List Segment) : ∀ (a : Nat),
    l.foldl (fun mc s => max (max mc s.topCol) s.botCol) a = a ∨
    ∃ s ∈ l, l.foldl (fun mc s => max (max mc s.topCol) s.botCol) a = s.topCol ∨
      l.foldl (fun mc s => max (max mc s.topCol) s.botCol) a = s.botCol := by
  induction l with
  | nil => intro a; exact Or.inl rfl
  | cons hd tl ih =>
      intro a
      rcases ih (max (max a hd.topCol) hd.botCol) with h | ⟨s, hs, h⟩
      · rw [List.foldl_cons]
        rcases max_cases (max a hd.topCol) hd.botCol with ⟨h1, -⟩ | ⟨h1, -⟩
        · rcases max_cases a hd.topCol with ⟨h2, -⟩ | ⟨h2, -⟩
          · exact Or.inl (by rw [h, h1, h2])
          · exact Or.inr ⟨hd, List.mem_cons_self _ _, Or.inl (by rw [h, h1, h2])⟩
        · exact Or.inr ⟨hd, List.mem_cons_self _ _, Or.inr (by rw [h, h1])⟩
      · exact Or.inr ⟨s, List.mem_cons_of_mem _ hs, h⟩

/-! Definitional projections of `stepCommit` and run-level lemmas. -/

theorem stepCommit_row_commitHash (lanes : Lanes) (ci : Nat) (c : Commit) :
    (stepCommit lanes ci c).row.commitHash = c.hash := rfl

theorem stepCommit_row_numCols (lanes : Lanes) (ci : Nat) (c : Commit) :
    (stepCommit lanes ci c).row.numCols =
      (stepCommit lanes ci c).row.segments.foldl
        (fun mc s => max (max mc s.topCol) s.botCol)
        (stepCommit lanes ci c).row.commitCol + 1 := rfl

theorem computeGraphLayoutAux_map_hash (cs : List Commit) :
    ∀ (lanes : Lanes) (ci : Nat),
    (computeGraphLayoutAux lanes ci cs).map GraphRow.commitHash =
      cs.map Commit.hash := by
  induction cs with
  | nil => intro lanes ci; rfl
  | cons c cs ih =>
      intro lanes ci
      simp only [computeGraphLayoutAux, List.map_cons]
      rw [ih, stepCommit_row_commitHash]

theorem mem_computeGraphLayoutAux {row : GraphRow} (cs : List Commit) :
    ∀ {lanes : Lanes} {ci : Nat}, row ∈ computeGraphLayoutAux lanes ci cs →
    ∃ l i c, row = (stepCommit l i c).row := by
  induction cs with
  | nil => intro lanes ci h; simp [computeGraphLayoutAux] at h
  | cons c cs ih =>
      intro lanes ci h
      rw [computeGraphLayoutAux] at h
      rcases List.mem_cons.mp h with h | h
      · exact ⟨lanes, ci, c, h⟩
      · exact ih h

/-! The claims. -/

/-- Claim C1: the Lane Allocation Engine is deterministic (it is a pure
function of the commit sequence, always started from the empty lane
array and a reset color counter), and it produces exactly one
`RowDescriptor` per input commit, in input order (row `k` carries the
hash of commit `k`). -/
theorem computeGraphLayout_deterministic_one_row_per_commit (commits : List Commit) :
    computeGraphLayout commits = computeGraphLayout commits ∧
    (computeGraphLayout commits).length = commits.length ∧
    (computeGraphLayout commits).map GraphRow.commitHash = commits.map Commit.hash := by
  refine ⟨rfl, ?_, ?_⟩
  · have h := computeGraphLayoutAux_map_hash commits [] 0
    have := congrArg List.length h
    simpa [computeGraphLayout] using this
  · exact computeGraphLayoutAux_map_hash commits [] 0

/-- Claim C3: `findFreeLane` — the engine's only allocation routine — is
leftmost-first: no index below the returned one is a free, non-excluded
slot; the returned slot is itself free and non-excluded (reusing the
array unchanged) whenever such a slot exists, and a new slot is appended
exactly when no free non-excluded slot exists. -/
theorem findFreeLane_leftmost (lanes : Lanes) (excl : List Nat) :
    (∀ j, j < (findFreeLane lanes excl).1 →
      ¬(lanes.getD j none = none ∧ j ∉ excl)) ∧
    (((findFreeLane lanes excl).1 < lanes.length ∧
        lanes.getD (findFreeLane lanes excl).1 none = none ∧
        (findFreeLane lanes excl).1 ∉ excl ∧
        (findFreeLane lanes excl).2 = lanes) ∨
      ((findFreeLane lanes excl).1 = lanes.length ∧
        (∀ j, j < lanes.length → ¬(lanes.getD j none = none ∧ j ∉ excl)) ∧
        (findFreeLane lanes excl).2 = lanes ++ [none])) := by
  unfold findFreeLane
  cases h : findFreeLaneAux lanes excl 0 with
  | some i =>
      constructor
      · intro j hj hc
        exact findFreeLaneAux_min h j (Nat.zero_le _) hj hc
      · refine Or.inl ⟨?_, ?_, findFreeLaneAux_not_mem h, rfl⟩
        · simpa using findFreeLaneAux_lt h
        · have := findFreeLaneAux_free h
          simpa using this
  | none =>
      have hall : ∀ j, j < lanes.length → ¬(lanes.getD j none = none ∧ j ∉ excl) := by
        intro j hj hc
        have := findFreeLaneAux_none h j hj
        rw [Nat.zero_add] at this
        exact this hc
      exact ⟨fun j hj => hall j hj, Or.inr ⟨rfl, hall, rfl⟩⟩

/-- Witness for C3 at a concrete lane array: with slot 0 occupied and
slot 1 free, the allocator picks slot 1, and no smaller index is free. -/
theorem findFreeLane_leftmost_witness :
    ¬(([some ⟨"a", "c"⟩, none] : Lanes).getD 0 none = none ∧ 0 ∉ ([] : List Nat)) :=
  (findFreeLane_leftmost [some ⟨"a", "c"⟩, none] []).1 0 (by decide)

/-- Claim C2: first-parent stability.  For a commit with at least one
parent: when a lane already awaited the commit's hash, the row's commit
column is that (lowest-index) lane and the row's commit color is that
lane's color; and in every case, after the row the commit-column slot
awaits the first parent with the row's commit color — a strand never
changes column or color along its first-parent edge. -/
theorem first_parent_stability
    (lanes : Lanes) (colorIdx : Nat) (commit : Commit) (p : String) (ps : List String)
    (hp : commit.parents = p :: ps) :
    (∀ i rest, findAllLanes lanes commit.hash = i :: rest →
      (stepCommit lanes colorIdx commit).row.commitCol = i ∧
      ∃ e, lanes.getD i none = some e ∧ e.hash = commit.hash ∧
        (stepCommit lanes colorIdx commit).row.commitColor = e.color) ∧
    (stepCommit lanes colorIdx commit).lanes.getD
        (stepCommit lanes colorIdx commit).row.commitCol none =
      some ⟨p, (stepCommit lanes colorIdx commit).row.commitColor⟩ := by
  constructor
  · intro i rest hm
    have hi : i ∈ findAllLanes lanes commit.hash := by
      rw [hm]; exact List.mem_cons_self _ _
    obtain ⟨e, he, hh⟩ := findAllLanes_mem_entry hi
    refine ⟨?_, e, he, hh, ?_⟩
    · simp only [stepCommit, hm, List.isEmpty_cons, Bool.false_eq_true, if_false,
        List.headD_cons]
    · simp only [stepCommit, hm, List.isEmpty_cons, Bool.false_eq_true, if_false,
        List.headD_cons, he]
  · cases hm : findAllLanes lanes commit.hash with
    | nil =>
        have hlt : (findFreeLane lanes []).1 < (findFreeLane lanes []).2.length :=
          findFreeLane_fst_lt_len _ _
        have h1 : ((findFreeLane lanes []).2.set (findFreeLane lanes []).1
            (some ⟨commit.hash, (nextColor colorIdx).1⟩)).getD
            (findFreeLane lanes []).1 none =
            some ⟨commit.hash, (nextColor colorIdx).1⟩ :=
          getD_set_self _ hlt
        simp only [stepCommit, hm, List.isEmpty_nil, if_true, hp, List.tail_nil,
          List.tail_cons, freeConverging, List.foldl_nil, h1]
        apply procExtraParents_getD_some
        apply getD_set_self
        rw [List.length_set]
        exact hlt
    | cons i rest =>
        have hi : i ∈ findAllLanes lanes commit.hash := by
          rw [hm]; exact List.mem_cons_self _ _
        obtain ⟨e, he, hh⟩ := findAllLanes_mem_entry hi
        have hilt : i < lanes.length := getD_some_lt he
        have hne : ∀ x ∈ rest, i < x := findAllLanes_tail_gt hm
        simp only [stepCommit, hm, List.isEmpty_cons, Bool.false_eq_true, if_false,
          List.headD_cons, List.tail_cons, hp, he]
        apply procExtraParents_getD_some
        apply getD_set_self
        rw [freeConverging_length]
        exact hilt

/-- Witness for C2: a one-lane state awaiting hash `h` with color `red`;
the commit `h` (parent `p`) keeps column 0 and color `red`, and the lane
then awaits `p` with color `red`. -/
theorem first_parent_stability_witness :
    (stepCommit [some ⟨"h", "red"⟩] 0 ⟨"h", ["p"]⟩).row.commitCol = 0 ∧
    (stepCommit [some ⟨"h", "red"⟩] 0 ⟨"h", ["p"]⟩).row.commitColor = "red" ∧
    (stepCommit [some ⟨"h", "red"⟩] 0 ⟨"h", ["p"]⟩).lanes.getD 0 none =
      some ⟨"p", "red"⟩ := by
  have h := first_parent_stability [some ⟨"h", "red"⟩] 0 ⟨"h", ["p"]⟩ "p" [] rfl
  obtain ⟨hcol, e, he, -, hclr⟩ := h.1 0 [] (by decide)
  have he' : e = (⟨"h", "red"⟩ : LaneEntry) := by
    have : some e = some (⟨"h", "red"⟩ : LaneEntry) := by
      rw [← he]; decide
    exact Option.some.inj this
  refine ⟨hcol, by rw [hclr, he'], ?_⟩
  have h2 := h.2
  rw [hcol, hclr, he'] at h2
  exact h2

/-! Lemmas for the color counter: every opened lane's color comes from
the counter's palette position at allocation time. -/

theorem map_snd_getD (l : List (Nat × String)) : ∀ (j : Nat), j < l.length →
    (l.map Prod.snd).getD j "" = (l.getD j (0, "")).2 := by
  induction l with
  | nil => intro j hj; simp at hj
  | cons hd tl ih =>
      intro j hj
      cases j with
      | zero => rfl
      | succ j' =>
          simp only [List.map_cons, List.getD_cons_succ]
          exact ih j' (by simp only [List.length_cons] at hj; omega)

theorem nextColor_snd (i : Nat) : (nextColor i).2 = i + 1 := rfl

theorem stepCommit_openedColors_spec (lanes : Lanes) (ci : Nat) (c : Commit) :
    (stepCommit lanes ci c).colorIdx =
      ci + (openedColors (stepCommit lanes ci c)).length ∧
    ∀ j, j < (openedColors (stepCommit lanes ci c)).length →
      (openedColors (stepCommit lanes ci c)).getD j "" =
        BRANCH_COLORS.getD ((ci + j) % 12) "" := by
  cases hm : findAllLanes lanes c.hash with
  | nil =>
      have hlt : (findFreeLane lanes []).1 < (findFreeLane lanes []).2.length :=
        findFreeLane_fst_lt_len _ _
      have h1 : ((findFreeLane lanes []).2.set (findFreeLane lanes []).1
          (some ⟨c.hash, (nextColor ci).1⟩)).getD (findFreeLane lanes []).1 none =
          some ⟨c.hash, (nextColor ci).1⟩ :=
        getD_set_self _ hlt
      simp only [openedColors, stepCommit, hm, List.isEmpty_nil, if_true, h1,
        List.tail_nil, freeConverging, List.foldl_nil, List.singleton_append,
        List.length_cons, List.length_map]
      constructor
      · rw [procExtraParents_colorIdx, nextColor_snd]
        omega
      · intro j hj
        cases j with
        | zero =>
            simp only [List.getD_cons_zero, Nat.add_zero]
            exact nextColor_fst ci
        | succ j' =>
            simp only [List.getD_cons_succ]
            rw [map_snd_getD _ j' (by omega),
              procExtraParents_fork_color _ _ _ _ j' (by omega), nextColor_snd]
            congr 1
            omega
  | cons i rest =>
      simp only [openedColors, stepCommit, hm, List.isEmpty_cons, Bool.false_eq_true,
        if_false, List.nil_append, List.length_map]
      constructor
      · rw [procExtraParents_colorIdx]
      · intro j hj
        rw [map_snd_getD _ j hj, procExtraParents_fork_color _ _ _ _ j hj]

theorem runOpenedColors_getD (cs : List Commit) : ∀ (lanes : Lanes) (ci j : Nat),
    j < (runOpenedColors lanes ci cs).length →
    (runOpenedColors lanes ci cs).getD j "" =
      BRANCH_COLORS.getD ((ci + j) % 12) "" := by
  induction cs with
  | nil => intro lanes ci j hj; simp [runOpenedColors] at hj
  | cons c cs ih =>
      intro lanes ci j hj
      simp only [runOpenedColors] at hj ⊢
      obtain ⟨hci, hcolors⟩ := stepCommit_openedColors_spec lanes ci c
      by_cases hjl : j < (openedColors (stepCommit lanes ci c)).length
      · rw [List.getD_eq_getElem?_getD, List.getElem?_append_left hjl,
          ← List.getD_eq_getElem?_getD]
        exact hcolors j hjl
      · push_neg at hjl
        rw [List.length_append] at hj
        rw [List.getD_eq_getElem?_getD, List.getElem?_append_right hjl,
          ← List.getD_eq_getElem?_getD]
        rw [ih _ _ _ (by omega), hci]
        congr 1
        omega

/-- Claim C4 (amended): counting newly-opened lanes across a whole run
started from the empty lane array and a reset counter, the Nth
newly-opened lane receives palette color `BRANCH_COLORS[(N-1) mod 12]`.
(The original claim's second half — that a freed-and-reused slot always
receives a color distinct from its previous occupant's — is refuted by
`reused_slot_color_can_repeat`: the counter wraps modulo 12, so a reuse
can repeat the slot's previous color.) -/
theorem nth_opened_lane_color (commits : List Commit) (N : Nat)
    (h1 : 1 ≤ N) (h2 : N ≤ (runOpenedColors [] 0 commits).length) :
    (runOpenedColors [] 0 commits).getD (N - 1) "" =
      BRANCH_COLORS.getD ((N - 1) % 12) "" := by
  have := runOpenedColors_getD commits [] 0 (N - 1) (by omega)
  simpa using this

/-- Witness for C4 (amended): one commit, one opened lane, whose color
is the palette's first entry. -/
theorem nth_opened_lane_color_witness :
    (runOpenedColors [] 0 [⟨"a", ["p"]⟩]).getD 0 "" =
      BRANCH_COLORS.getD (0 % 12) "" :=
  nth_opened_lane_color [⟨"a", ["p"]⟩] 1 (by decide) (by decide)

/-- Counterexample for C4 as stated: a lane slot freed and later reused
can receive the very color its previous occupant had, because the color
counter wraps modulo 12.  Slot 0 first carries `#F5A623`; eleven other
tips consume the rest of the palette; a root commit frees slot 0; the
next tip reuses slot 0 with counter value 12, i.e. `#F5A623` again. -/
theorem reused_slot_color_can_repeat :
    ¬ (∀ (cs : List Commit) (k m s : Nat) (e e' : LaneEntry),
        k + 1 < m →
        (lanesAfter cs k).getD s none = some e →
        (∀ t, k < t → t < m → (lanesAfter cs t).getD s none = none) →
        (lanesAfter cs m).getD s none = some e' →
        e'.color ≠ e.color) := by
  intro h
  exact h
    [⟨"t0", ["a"]⟩, ⟨"t1", ["p1"]⟩, ⟨"t2", ["p2"]⟩, ⟨"t3", ["p3"]⟩,
     ⟨"t4", ["p4"]⟩, ⟨"t5", ["p5"]⟩, ⟨"t6", ["p6"]⟩, ⟨"t7", ["p7"]⟩,
     ⟨"t8", ["p8"]⟩, ⟨"t9", ["p9"]⟩, ⟨"t10", ["p10"]⟩, ⟨"t11", ["p11"]⟩,
     ⟨"a", []⟩, ⟨"x", ["y"]⟩]
    12 14 0 ⟨"a", "#F5A623"⟩ ⟨"y", "#F5A623"⟩
    (by omega) (by decide)
    (fun t ht1 ht2 => by
      have ht : t = 13 := by omega
      subst ht
      decide)
    (by decide) rfl

/-! Lemmas locating the commit-column stub among a row's segments: no
segment block other than block C produces a same-column segment at the
commit column. -/

theorem filter_stub_buildSegsA (topLanes botLanes : Lanes) (CL : Nat) :
    (buildSegsA topLanes botLanes CL).filter
      (fun s => decide (s.topCol = CL) && decide (s.botCol = CL)) = [] := by
  apply List.filter_eq_nil_iff.mpr
  intro s hs
  obtain ⟨i, hi, hf⟩ := List.mem_filterMap.mp hs
  by_cases hic : i = CL
  · rw [if_pos hic] at hf
    exact absurd hf (by simp)
  · rw [if_neg hic] at hf
    cases h1 : topLanes.getD i none with
    | none => rw [h1] at hf; simp at hf
    | some t =>
        cases h2 : botLanes.getD i none with
        | none => rw [h1, h2] at hf; simp at hf
        | some b =>
            rw [h1, h2] at hf
            have hs' : s = ⟨i, i, t.color, none⟩ := (Option.some.inj hf).symm
            subst hs'
            simp [hic]

theorem filter_stub_buildSegsB (topLanes : Lanes) (CL : Nat) (cc : String)
    (cls : List Nat) (hcls : ∀ cl ∈ cls, cl ≠ CL) :
    (buildSegsB topLanes CL cc cls).filter
      (fun s => decide (s.topCol = CL) && decide (s.botCol = CL)) = [] := by
  apply List.filter_eq_nil_iff.mpr
  intro s hs
  obtain ⟨cl, hcl, hf⟩ := List.mem_map.mp hs
  rw [← hf]
  simp [hcls cl hcl]

theorem filter_stub_forks (CL : Nat) (forks : List (Nat × String))
    (hf : ∀ f ∈ forks, f.1 ≠ CL) :
    (forks.map (fun f => (⟨CL, f.1, f.2, some Half.bottom⟩ : Segment))).filter
      (fun s => decide (s.topCol = CL) && decide (s.botCol = CL)) = [] := by
  apply List.filter_eq_nil_iff.mpr
  intro s hs
  obtain ⟨f, hfm, he⟩ := List.mem_map.mp hs
  rw [← he]
  simp [hf f hfm]

theorem filter_stub_merges (CL : Nat) (merges : List (Nat × String))
    (hm : ∀ m ∈ merges, m.1 ≠ CL) :
    (merges.map (fun m => (⟨m.1, CL, m.2, none⟩ : Segment))).filter
      (fun s => decide (s.topCol = CL) && decide (s.botCol = CL)) = [] := by
  apply List.filter_eq_nil_iff.mpr
  intro s hs
  obtain ⟨m, hmm, he⟩ := List.mem_map.mp hs
  rw [← he]
  simp [hm m hmm]

theorem filter_stub_single (CL : Nat) (cc : String) (h : Option Half) :
    ([(⟨CL, CL, cc, h⟩ : Segment)]).filter
      (fun s => decide (s.topCol = CL) && decide (s.botCol = CL)) =
      [⟨CL, CL, cc, h⟩] := by
  simp

theorem filter_commit_stub (topLanes : Lanes) (CL : Nat) (cc : String)
    (cls : List Nat) (hcls : ∀ cl ∈ cls, cl ≠ CL)
    (ps : List String) (L3 : Lanes) (CI : Nat) (hCL : CL < L3.length)
    (hh : Option Half) :
    ((buildSegsA topLanes (procExtraParents CL ps L3 CI).lanes CL ++
      buildSegsB topLanes CL cc cls ++
      [(⟨CL, CL, cc, hh⟩ : Segment)] ++
      (procExtraParents CL ps L3 CI).forks.map
        (fun f => (⟨CL, f.1, f.2, some Half.bottom⟩ : Segment)) ++
      (procExtraParents CL ps L3 CI).merges.map
        (fun m => (⟨m.1, CL, m.2, none⟩ : Segment))).filter
      (fun s => decide (s.topCol = CL) && decide (s.botCol = CL))) =
    [⟨CL, CL, cc, hh⟩] := by
  simp only [List.filter_append]
  rw [filter_stub_buildSegsA, filter_stub_buildSegsB _ _ _ _ hcls,
    filter_stub_single,
    filter_stub_forks _ _ (fun f hf => procExtraParents_fork_ne CL ps hCL hf),
    filter_stub_merges _ _ (fun m hm => procExtraParents_merge_ne CL ps hm)]
  simp

/-- Claim C5: the commit-lane stub rule.  Among a row's segments there
is exactly one same-column segment at the commit column, and its `half`
flag is: `bottom` for a new tip with at least one parent, full height
(`none`) for a continuing non-tip strand, `top` for a root that is not a
new tip, and full height (the degenerate marker-only stub) for a root
that is simultaneously a new tip. -/
theorem commit_lane_stub_rule (lanes : Lanes) (colorIdx : Nat) (commit : Commit) :
    (stepCommit lanes colorIdx commit).row.segments.filter
      (fun s => decide (s.topCol = (stepCommit lanes colorIdx commit).row.commitCol) &&
        decide (s.botCol = (stepCommit lanes colorIdx commit).row.commitCol)) =
    [⟨(stepCommit lanes colorIdx commit).row.commitCol,
      (stepCommit lanes colorIdx commit).row.commitCol,
      (stepCommit lanes colorIdx commit).row.commitColor,
      if commit.parents.isEmpty then
        (if (findAllLanes lanes commit.hash).isEmpty then none else some Half.top)
      else
        (if (findAllLanes lanes commit.hash).isEmpty then some Half.bottom else none)⟩] := by
  cases hm : findAllLanes lanes commit.hash with
  | nil =>
      have hlt : (findFreeLane lanes []).1 < (findFreeLane lanes []).2.length :=
        findFreeLane_fst_lt_len _ _
      have h1 : ((findFreeLane lanes []).2.set (findFreeLane lanes []).1
          (some ⟨commit.hash, (nextColor colorIdx).1⟩)).getD
          (findFreeLane lanes []).1 none =
          some ⟨commit.hash, (nextColor colorIdx).1⟩ :=
        getD_set_self _ hlt
      cases hp : commit.parents with
      | nil =>
          simp only [stepCommit, hm, hp, List.isEmpty_nil, if_true, h1,
            List.tail_nil, freeConverging, List.foldl_nil]
          exact filter_commit_stub _ _ _ _ (by simp) _ _ _
            (by rw [List.length_set, List.length_set]; exact hlt) _
      | cons p ps =>
          simp only [stepCommit, hm, hp, List.isEmpty_nil, List.isEmpty_cons,
            Bool.false_eq_true, if_true, if_false, h1, List.tail_nil,
            List.tail_cons, freeConverging, List.foldl_nil]
          exact filter_commit_stub _ _ _ _ (by simp) _ _ _
            (by rw [List.length_set, List.length_set]; exact hlt) _
  | cons i rest =>
      have hi : i ∈ findAllLanes lanes commit.hash := by
        rw [hm]; exact List.mem_cons_self _ _
      obtain ⟨e, he, hh⟩ := findAllLanes_mem_entry hi
      have hilt : i < lanes.length := getD_some_lt he
      have hcls : ∀ cl ∈ rest, cl ≠ i :=
        fun cl hcl => Nat.ne_of_gt (findAllLanes_tail_gt hm cl hcl)
      cases hp : commit.parents with
      | nil =>
          simp only [stepCommit, hm, hp, List.isEmpty_nil, List.isEmpty_cons,
            Bool.false_eq_true, if_true, if_false, List.headD_cons,
            List.tail_nil, List.tail_cons, he]
          exact filter_commit_stub _ _ _ _ hcls _ _ _
            (by rw [List.length_set, freeConverging_length]; exact hilt) _
      | cons p ps =>
          simp only [stepCommit, hm, hp, List.isEmpty_cons, Bool.false_eq_true,
            if_false, List.headD_cons, List.tail_cons, he]
          exact filter_commit_stub _ _ _ _ hcls _ _ _
            (by rw [List.length_set, freeConverging_length]; exact hilt) _

/-- Claim C6 (amended): convergence.  When two or more lanes await the
commit's hash, the lowest-index matching lane becomes the commit column;
every other matching lane emits a full-height convergence segment from
its own column, carrying its pre-row color, down to the commit column,
and its slot is freed during the row: unless the row reopens that slot
as a fork lane, the slot is null after the row.  (The original claim's
"null for the rest of the pass" is refuted by
`converging_lane_slot_not_null_after_row`: the same row's fork
allocation can immediately reoccupy the freed slot.) -/
theorem converging_lanes_behavior
    (lanes : Lanes) (colorIdx : Nat) (commit : Commit) (i j : Nat) (rest : List Nat)
    (hm : findAllLanes lanes commit.hash = i :: j :: rest) :
    (stepCommit lanes colorIdx commit).row.commitCol = i ∧
    ∀ cl ∈ j :: rest,
      (∃ e, lanes.getD cl none = some e ∧ e.hash = commit.hash ∧
        (⟨cl, i, e.color, none⟩ : Segment) ∈
          (stepCommit lanes colorIdx commit).row.segments) ∧
      ((∀ f ∈ (stepCommit lanes colorIdx commit).forks, f.1 ≠ cl) →
        (stepCommit lanes colorIdx commit).lanes.getD cl none = none) := by
  have hi : i ∈ findAllLanes lanes commit.hash := by
    rw [hm]; exact List.mem_cons_self _ _
  obtain ⟨ei, hei, hhi⟩ := findAllLanes_mem_entry hi
  constructor
  · simp only [stepCommit, hm, List.isEmpty_cons, Bool.false_eq_true, if_false,
      List.headD_cons]
  · intro cl hcl
    have hclm : cl ∈ findAllLanes lanes commit.hash := by
      rw [hm]; exact List.mem_cons_of_mem _ hcl
    obtain ⟨e, he, hh⟩ := findAllLanes_mem_entry hclm
    have hgt : i < cl := findAllLanes_tail_gt hm cl hcl
    have hcllt : cl < lanes.length := getD_some_lt he
    constructor
    · refine ⟨e, he, hh, ?_⟩
      have hB : (⟨cl, i, e.color, none⟩ : Segment) ∈
          buildSegsB lanes i
            (match lanes.getD i none with
              | some e => e.color
              | none => "") (j :: rest) := by
        refine List.mem_map.mpr ⟨cl, hcl, ?_⟩
        rw [he]
      simp only [stepCommit, hm, List.isEmpty_cons, Bool.false_eq_true, if_false,
        List.headD_cons, List.tail_cons, List.mem_append]
      tauto
    · intro hnof
      simp only [stepCommit, hm, List.isEmpty_cons, Bool.false_eq_true, if_false,
        List.headD_cons, List.tail_cons] at hnof ⊢
      rw [procExtraParents_getD_not_fork _ _ hnof]
      have hne : i ≠ cl := by omega
      cases hp : commit.parents with
      | nil =>
          simp only
          rw [getD_set_ne _ hne]
          exact freeConverging_getD_mem hcl hcllt
      | cons p ps =>
          simp only
          rw [getD_set_ne _ hne]
          exact freeConverging_getD_mem hcl hcllt

/-- Witness for C6 (amended): two lanes both awaiting `p`; the row for
`p` takes column 0, emits the convergence segment from column 1, and —
since it opens no fork there — leaves slot 1 null. -/
theorem converging_lanes_behavior_witness :
    (stepCommit [some ⟨"p", "x"⟩, some ⟨"p", "y"⟩] 0 ⟨"p", ["p1"]⟩).row.commitCol = 0 ∧
    (⟨1, 0, "y", none⟩ : Segment) ∈
      (stepCommit [some ⟨"p", "x"⟩, some ⟨"p", "y"⟩] 0 ⟨"p", ["p1"]⟩).row.segments ∧
    (stepCommit [some ⟨"p", "x"⟩, some ⟨"p", "y"⟩] 0 ⟨"p", ["p1"]⟩).lanes.getD 1 none =
      none := by
  have h := converging_lanes_behavior [some ⟨"p", "x"⟩, some ⟨"p", "y"⟩] 0
    ⟨"p", ["p1"]⟩ 0 1 [] (by decide)
  obtain ⟨⟨e, he, hh, hseg⟩, hnull⟩ := h.2 1 (List.mem_cons_self _ _)
  have he' : e = (⟨"p", "y"⟩ : LaneEntry) := by
    have h0 : some e = some (⟨"p", "y"⟩ : LaneEntry) := by rw [← he]; decide
    exact Option.some.inj h0
  rw [he'] at hseg
  exact ⟨h.1, hseg, hnull (by decide)⟩

/-- Counterexample for C6 as stated: a converging lane's slot is not
null "for the rest of the pass" — the very row that frees it can reopen
it as a fork lane.  Two lanes await `p`; the row for `p` (parents
`[p1, q]`) frees slot 1 and immediately reuses it for the fork toward
`q`, so after the row slot 1 is occupied. -/
theorem converging_lane_slot_not_null_after_row :
    ¬ (∀ (lanes : Lanes) (colorIdx : Nat) (commit : Commit) (i j : Nat)
        (rest : List Nat),
        findAllLanes lanes commit.hash = i :: j :: rest →
        ∀ cl ∈ j :: rest,
          (stepCommit lanes colorIdx commit).lanes.getD cl none = none) := by
  intro h
  have := h [some ⟨"p", "c0"⟩, some ⟨"p", "c1"⟩] 2 ⟨"p", ["p1", "q"]⟩ 0 1 []
    (by decide) 1 (List.mem_cons_self _ _)
  exact absurd this (by decide)

/-- Claim C7: column-count round trip.  For every emitted row,
`numCols - 1` is exactly the maximum of the commit column and every
`topCol` and `botCol` of the row's segments: it bounds them all, and it
is attained by the commit column or by some segment endpoint. -/
theorem row_numCols_round_trip (commits : List Commit) (row : GraphRow)
    (hrow : row ∈ computeGraphLayout commits) :
    row.commitCol ≤ row.numCols - 1 ∧
    (∀ s ∈ row.segments, s.topCol ≤ row.numCols - 1 ∧ s.botCol ≤ row.numCols - 1) ∧
    (row.numCols - 1 = row.commitCol ∨
      ∃ s ∈ row.segments, row.numCols - 1 = s.topCol ∨ row.numCols - 1 = s.botCol) := by
  obtain ⟨l, i, c, he⟩ := mem_computeGraphLayoutAux commits hrow
  subst he
  rw [stepCommit_row_numCols]
  simp only [Nat.add_sub_cancel]
  refine ⟨segFold_ge_init _ _, ?_, segFold_attained _ _⟩
  intro s hs
  exact segFold_le_mem _ hs _

/-- Witness for C7 at the single-root-commit history: the row's commit
column is bounded by `numCols - 1`. -/
theorem row_numCols_round_trip_witness :
    (stepCommit [] 0 ⟨"a", []⟩).row.commitCol ≤
      (stepCommit [] 0 ⟨"a", []⟩).row.numCols - 1 :=
  (row_numCols_round_trip [⟨"a", []⟩] _ (by decide)).1

/-- Claim C8: cache keying.  The tile key is a function of exactly the
commit column, commit color, row height, column count and the ordered
segment tuples — in particular it does not depend on the commit hash (or
on the row's own `numCols` field, which the cache overrides with its
column-count argument), so two distinct commits with identical row
geometry share a key.  On a hit `getTilePath` returns the stored path
with the cache state untouched (no render, no write); on a miss it
renders the tile, persists it under `cacheDir/key.svg`, records the path
and returns it. -/
theorem cache_key_and_getTilePath
    (st : SvgTileCache) (row : GraphRow) (rowHeight : Nat) (maxCols : Option Nat) :
    (∀ (h1 h2 : String) (n1 n2 cc : Nat) (color : String) (segs : List Segment)
        (rh mc : Nat),
      buildKey ⟨h1, cc, color, segs, n1⟩ rh mc =
        buildKey ⟨h2, cc, color, segs, n2⟩ rh mc) ∧
    (∀ p, st.cache.lookup (buildKey row rowHeight (maxCols.getD row.numCols)) = some p →
      getTilePath st row rowHeight maxCols = (p, st)) ∧
    (st.cache.lookup (buildKey row rowHeight (maxCols.getD row.numCols)) = none →
      getTilePath st row rowHeight maxCols =
        (pathJoin st.cacheDir
            (buildKey row rowHeight (maxCols.getD row.numCols) ++ ".svg"),
         { st with
            cache := (buildKey row rowHeight (maxCols.getD row.numCols),
              pathJoin st.cacheDir
                (buildKey row rowHeight (maxCols.getD row.numCols) ++ ".svg")) ::
                  st.cache,
            files := (pathJoin st.cacheDir
                (buildKey row rowHeight (maxCols.getD row.numCols) ++ ".svg"),
              renderSvg row (rowHeight : ℚ)
                (some (maxCols.getD row.numCols))) :: st.files })) := by
  refine ⟨fun h1 h2 n1 n2 cc color segs rh mc => rfl, ?_, ?_⟩
  · intro p hp
    simp only [getTilePath, hp]
  · intro hp
    simp only [getTilePath, hp]

set_option maxRecDepth 40000 in
/-- Witness for C8: a hit returns the stored path (the stored key was
built from a row differing only in commit hash — same geometry, same
key), and a miss returns the freshly persisted path. -/
theorem cache_key_and_getTilePath_witness :
    (getTilePath ⟨"d", [(buildKey ⟨"", 0, "", [], 1⟩ 24 1, "p0")], []⟩
        ⟨"deadbeef", 0, "", [], 1⟩ 24 none).1 = "p0" ∧
    (getTilePath ⟨"d", [], []⟩ ⟨"deadbeef", 0, "", [], 1⟩ 24 none).1 =
      pathJoin "d" (buildKey ⟨"deadbeef", 0, "", [], 1⟩ 24 1 ++ ".svg") := by
  constructor
  · have h := (cache_key_and_getTilePath
      ⟨"d", [(buildKey ⟨"", 0, "", [], 1⟩ 24 1, "p0")], []⟩
      ⟨"deadbeef", 0, "", [], 1⟩ 24 none).2.1 "p0" (by decide)
    exact congrArg Prod.fst h
  · have h := (cache_key_and_getTilePath ⟨"d", [], []⟩
      ⟨"deadbeef", 0, "", [], 1⟩ 24 none).2.2 (by decide)
    exact congrArg Prod.fst h

theorem colX_injective {a b : Nat} (h : colX a = colX b) : a = b := by
  unfold colX COL_WIDTH at h
  have h2 : (a : ℚ) = b := by linarith
  exact_mod_cast h2

/-- Claim C9: renderer geometry.  The tile is `cols * COL_WIDTH +
COL_WIDTH` wide and `h` tall; column `c` is centered at
`c * COL_WIDTH + COL_WIDTH / 2`; the dot sits at the commit column's
center on the midline; each segment's vertical span is `[0, h]` without
a half flag, `[0, h/2]` for `top`, `[h/2, h]` for `bottom`; same-column
segments render as straight vertical lines, and cross-column segments as
cubics whose control points sit at fraction `0.35` of the span for
full-height segments and `0.5` for half-height ones. -/
theorem renderer_geometry (row : GraphRow) (h : ℚ) (cols : Nat) (seg : Segment) :
    (renderSvg row h (some cols)).width = cols * COL_WIDTH + COL_WIDTH ∧
    (renderSvg row h (some cols)).height = h ∧
    (renderSvg row h (some cols)).dotX = colX row.commitCol ∧
    (renderSvg row h (some cols)).dotY = h / 2 ∧
    (renderSvg row h (some cols)).dotColor = row.commitColor ∧
    (renderSvg row h (some cols)).segs = row.segments.map (renderSeg h) ∧
    (∀ c : Nat, colX c = c * COL_WIDTH + COL_WIDTH / 2) ∧
    (renderSeg h seg).color = seg.color ∧
    (renderSeg h seg).path =
      (let y0 : ℚ := if seg.half = some Half.bottom then h / 2 else 0
       let y1 : ℚ := if seg.half = some Half.top then h / 2 else h
       let cp : ℚ := if seg.half = none then 35 / 100 else 1 / 2
       if seg.topCol = seg.botCol then
         PathD.line (colX seg.topCol) y0 (colX seg.topCol) y1
       else
         PathD.cubic (colX seg.topCol) y0 (colX seg.topCol) (y0 + (y1 - y0) * cp)
           (colX seg.botCol) (y0 + (y1 - y0) * cp) (colX seg.botCol) y1) := by
  refine ⟨rfl, rfl, rfl, rfl, rfl, rfl, fun c => rfl, rfl, ?_⟩
  cases hsh : seg.half with
  | none =>
      by_cases htb : seg.topCol = seg.botCol
      · simp [renderSeg, segmentPath, hsh, htb]
      · have hxne : colX seg.topCol ≠ colX seg.botCol :=
          fun hc => htb (colX_injective hc)
        simp [renderSeg, segmentPath, hsh, htb, hxne]
  | some hf =>
      cases hf with
      | top =>
          by_cases htb : seg.topCol = seg.botCol
          · simp [renderSeg, segmentPath, hsh, htb]
          · have hxne : colX seg.topCol ≠ colX seg.botCol :=
              fun hc => htb (colX_injective hc)
            simp [renderSeg, segmentPath, hsh, htb, hxne]
      | bottom =>
          by_cases htb : seg.topCol = seg.botCol
          · simp [renderSeg, segmentPath, hsh, htb]
          · have hxne : colX seg.topCol ≠ colX seg.botCol :=
              fun hc => htb (colX_injective hc)
            simp [renderSeg, segmentPath, hsh, htb, hxne]

/-- Claim C10 (amended): merges leave the donor lane intact.  For a
merge parent resolved in lane `m` (other than the commit column): if `m`
was live before the row and is not one of the row's converging lanes,
the row leaves its entry unchanged (same awaited hash, same color, which
is also the recorded merge color), and emits both the full-height
same-column pass-through at column `m` and the full-height merge curve
from `m` to the commit column.  In general a row only modifies the
commit's own lane, the converging lanes it frees, and the fork lanes it
opens.  (Without the liveness hypothesis the pass-through can be absent:
see `merge_without_pass_through`, where a duplicated parent hash lets a
merge resolve in a lane the same row just opened as a fork.) -/
theorem merge_frame_effect
    (lanes : Lanes) (colorIdx : Nat) (commit : Commit) (m : Nat) (c : String)
    (e0 : LaneEntry)
    (hmem : (m, c) ∈ (stepCommit lanes colorIdx commit).merges)
    (he0 : lanes.getD m none = some e0)
    (hnc : m ∉ (stepCommit lanes colorIdx commit).convergingLanes) :
    (stepCommit lanes colorIdx commit).lanes.getD m none = some e0 ∧
    c = e0.color ∧
    (⟨m, m, e0.color, none⟩ : Segment) ∈
      (stepCommit lanes colorIdx commit).row.segments ∧
    (⟨m, (stepCommit lanes colorIdx commit).row.commitCol, c, none⟩ : Segment) ∈
      (stepCommit lanes colorIdx commit).row.segments ∧
    (∀ j, j ≠ (stepCommit lanes colorIdx commit).row.commitCol →
      j ∉ (stepCommit lanes colorIdx commit).convergingLanes →
      (∀ f ∈ (stepCommit lanes colorIdx commit).forks, f.1 ≠ j) →
      (stepCommit lanes colorIdx commit).lanes.getD j none = lanes.getD j none) := by
  have hmlt : m < lanes.length := getD_some_lt he0
  cases hp : commit.parents with
  | nil =>
      exfalso
      simp [stepCommit, hp, procExtraParents] at hmem
  | cons p ps =>
      cases hm : findAllLanes lanes commit.hash with
      | nil =>
          have hlt : (findFreeLane lanes []).1 < (findFreeLane lanes []).2.length :=
            findFreeLane_fst_lt_len _ _
          have h1 : ((findFreeLane lanes []).2.set (findFreeLane lanes []).1
              (some ⟨commit.hash, (nextColor colorIdx).1⟩)).getD
              (findFreeLane lanes []).1 none =
              some ⟨commit.hash, (nextColor colorIdx).1⟩ :=
            getD_set_self _ hlt
          simp only [stepCommit, hm, hp, List.isEmpty_nil, if_true, h1,
            List.tail_nil, List.tail_cons, freeConverging, List.foldl_nil]
            at hmem hnc ⊢
          have hmne : m ≠ (findFreeLane lanes []).1 :=
            procExtraParents_merge_ne _ _ hmem
          have htop : ((findFreeLane lanes []).2.set (findFreeLane lanes []).1
              (some ⟨commit.hash, (nextColor colorIdx).1⟩)).getD m none = some e0 := by
            rw [getD_set_ne _ (Ne.symm hmne), findFreeLane_snd_getD]
            exact he0
          have hlanes3 : (((findFreeLane lanes []).2.set (findFreeLane lanes []).1
              (some ⟨commit.hash, (nextColor colorIdx).1⟩)).set
                (findFreeLane lanes []).1
                (some ⟨p, (nextColor colorIdx).1⟩)).getD m none = some e0 := by
            rw [getD_set_ne _ (Ne.symm hmne)]
            exact htop
          have hconc1 := @procExtraParents_getD_some (findFreeLane lanes []).1 ps
            (((findFreeLane lanes []).2.set (findFreeLane lanes []).1
              (some ⟨commit.hash, (nextColor colorIdx).1⟩)).set
              (findFreeLane lanes []).1
              (some ⟨p, (nextColor colorIdx).1⟩))
            (nextColor colorIdx).2 m e0 hlanes3
          refine ⟨hconc1, ?_, ?_, ?_, ?_⟩
          · obtain ⟨e, he, hc, -⟩ := procExtraParents_merge_entry _ _ hmem
            rw [hconc1] at he
            rw [← hc, Option.some.inj he]
          · have hm1 : m < ((findFreeLane lanes []).2.set (findFreeLane lanes []).1
                (some ⟨commit.hash, (nextColor colorIdx).1⟩)).length := by
              rw [List.length_set]
              exact lt_of_lt_of_le hmlt (findFreeLane_snd_len_ge _ _)
            have hA : (⟨m, m, e0.color, none⟩ : Segment) ∈
                buildSegsA ((findFreeLane lanes []).2.set (findFreeLane lanes []).1
                  (some ⟨commit.hash, (nextColor colorIdx).1⟩))
                  (procExtraParents (findFreeLane lanes []).1 ps
                    (((findFreeLane lanes []).2.set (findFreeLane lanes []).1
                      (some ⟨commit.hash, (nextColor colorIdx).1⟩)).set
                      (findFreeLane lanes []).1
                      (some ⟨p, (nextColor colorIdx).1⟩))
                    (nextColor colorIdx).2).lanes
                  (findFreeLane lanes []).1 := by
              refine List.mem_filterMap.mpr ⟨m, List.mem_range.mpr
                (lt_of_lt_of_le hm1 (le_max_left _ _)), ?_⟩
              rw [if_neg hmne, htop, hconc1]
            simp only [List.mem_append]
            tauto
          · have hE : (⟨m, (findFreeLane lanes []).1, c, none⟩ : Segment) ∈
                (procExtraParents (findFreeLane lanes []).1 ps
                  (((findFreeLane lanes []).2.set (findFreeLane lanes []).1
                    (some ⟨commit.hash, (nextColor colorIdx).1⟩)).set
                    (findFreeLane lanes []).1
                    (some ⟨p, (nextColor colorIdx).1⟩))
                  (nextColor colorIdx).2).merges.map
                  (fun mg => (⟨mg.1, (findFreeLane lanes []).1, mg.2, none⟩ : Segment)) :=
              List.mem_map.mpr ⟨(m, c), hmem, rfl⟩
            simp only [List.mem_append]
            tauto
          · intro j hj1 hj2 hj3
            rw [procExtraParents_getD_not_fork _ _ hj3,
              getD_set_ne _ (Ne.symm hj1), getD_set_ne _ (Ne.symm hj1),
              findFreeLane_snd_getD]
      | cons i rest =>
          have hi : i ∈ findAllLanes lanes commit.hash := by
            rw [hm]; exact List.mem_cons_self _ _
          obtain ⟨ei, hei, -⟩ := findAllLanes_mem_entry hi
          simp only [stepCommit, hm, hp, List.isEmpty_cons, Bool.false_eq_true,
            if_false, List.headD_cons, List.tail_cons, hei] at hmem hnc ⊢
          have hmne : m ≠ i := procExtraParents_merge_ne _ _ hmem
          have hlanes2 : (freeConverging lanes rest).getD m none = some e0 := by
            rw [freeConverging_getD_not_mem hnc]
            exact he0
          have hlanes3 : ((freeConverging lanes rest).set i
              (some ⟨p, ei.color⟩)).getD m none = some e0 := by
            rw [getD_set_ne _ (Ne.symm hmne)]
            exact hlanes2
          have hconc1 := @procExtraParents_getD_some i ps
            ((freeConverging lanes rest).set i (some ⟨p, ei.color⟩))
            colorIdx m e0 hlanes3
          refine ⟨hconc1, ?_, ?_, ?_, ?_⟩
          · obtain ⟨e, he, hc, -⟩ := procExtraParents_merge_entry _ _ hmem
            rw [hconc1] at he
            rw [← hc, Option.some.inj he]
          · have hA : (⟨m, m, e0.color, none⟩ : Segment) ∈
                buildSegsA lanes
                  (procExtraParents i ps ((freeConverging lanes rest).set i
                    (some ⟨p, ei.color⟩)) colorIdx).lanes i := by
              refine List.mem_filterMap.mpr ⟨m, List.mem_range.mpr
                (lt_of_lt_of_le hmlt (le_max_left _ _)), ?_⟩
              rw [if_neg hmne, he0, hconc1]
            simp only [List.mem_append]
            tauto
          · have hE : (⟨m, i, c, none⟩ : Segment) ∈
                (procExtraParents i ps ((freeConverging lanes rest).set i
                  (some ⟨p, ei.color⟩)) colorIdx).merges.map
                  (fun mg => (⟨mg.1, i, mg.2, none⟩ : Segment)) :=
              List.mem_map.mpr ⟨(m, c), hmem, rfl⟩
            simp only [List.mem_append]
            tauto
          · intro j hj1 hj2 hj3
            rw [procExtraParents_getD_not_fork _ _ hj3,
              getD_set_ne _ (Ne.symm hj1), freeConverging_getD_not_mem hj2]

/-- Witness for C10 (amended): lane 1 awaits `b` with color `y`; the
commit `a` (parents `[a2, b]`) merges it, leaves the entry unchanged,
and emits both the pass-through at column 1 and the merge curve 1 → 0. -/
theorem merge_frame_effect_witness :
    (stepCommit [some ⟨"a", "x"⟩, some ⟨"b", "y"⟩] 5
        ⟨"a", ["a2", "b"]⟩).lanes.getD 1 none = some ⟨"b", "y"⟩ ∧
    (⟨1, 1, "y", none⟩ : Segment) ∈
      (stepCommit [some ⟨"a", "x"⟩, some ⟨"b", "y"⟩] 5
        ⟨"a", ["a2", "b"]⟩).row.segments ∧
    (⟨1, 0, "y", none⟩ : Segment) ∈
      (stepCommit [some ⟨"a", "x"⟩, some ⟨"b", "y"⟩] 5
        ⟨"a", ["a2", "b"]⟩).row.segments := by
  have h := merge_frame_effect [some ⟨"a", "x"⟩, some ⟨"b", "y"⟩] 5
    ⟨"a", ["a2", "b"]⟩ 1 "y" ⟨"b", "y"⟩ (by decide) (by decide) (by decide)
  have hcol : (stepCommit [some ⟨"a", "x"⟩, some ⟨"b", "y"⟩] 5
      ⟨"a", ["a2", "b"]⟩).row.commitCol = 0 := by decide
  have hc := h.2.2.2.1
  rw [hcol] at hc
  exact ⟨h.1, h.2.2.1, hc⟩

/-- Counterexample for C10 as stated: a merge parent found in an
existing lane does not always yield a pass-through at that lane's
column.  With duplicate parent hashes (`parents = [p, q, q]`), the
second `q` merges into the lane the same row just opened as a fork, a
lane that was dead at the top of the row — so no same-column segment at
column 1 exists. -/
theorem merge_without_pass_through :
    ¬ (∀ (lanes : Lanes) (colorIdx : Nat) (commit : Commit) (m : Nat) (c : String),
        (m, c) ∈ (stepCommit lanes colorIdx commit).merges →
        ∃ color, (⟨m, m, color, none⟩ : Segment) ∈
          (stepCommit lanes colorIdx commit).row.segments) := by
  intro h
  obtain ⟨color, hc⟩ := h [] 0 ⟨"c", ["p", "q", "q"]⟩ 1 "#4FC3F7" (by decide)
  have hs : (stepCommit ([] : Lanes) 0 ⟨"c", ["p", "q", "q"]⟩).row.segments =
      [⟨0, 0, "#F5A623", some Half.bottom⟩, ⟨0, 1, "#4FC3F7", some Half.bottom⟩,
       ⟨1, 0, "#4FC3F7", none⟩] := by decide
  rw [hs] at hc
  simp at hc

end BoomerGit
